import Mathlib

/-!
Verification of the virtual time scheduler
(src/src/core/concurrency/virtualtimescheduler.js).

Shallow embedding. Virtual time values are `Int` (the JS code uses plain
numbers with the default comparer and the base scheduler's additive `add`).
The scheduler state is a record; the mutating JS methods become functions
`SchedState → SchedState` (or fuel-indexed `Option SchedState` for the
potentially unbounded dispatch loops, and `VTResult` for methods that can
throw the `argumentOutOfRange` error).

Scheduled actions are arbitrary callables in JS.  They are embedded
syntactically (`Act`) with the behaviours that matter to the scheduler
itself: doing nothing, observing the clock, stopping the scheduler,
cancelling another item, scheduling further work, and the periodic
recursive tick.  Every invocation appends a `TraceEntry` to a ghost
`trace` field recording the invoked item, its due time, the clock it
observed and the action's output value; the ghost field `stopCalled`
records that some invoked action called `stop`.  Neither ghost field is
read by the embedded code.

A scheduled item's `isCancelled` flag is a once-settable shared boolean in
JS (mutated through the returned disposable).  It is embedded as
membership of the item's id in the scheduler-state field `cancelSet`, so
that cancellation (adding the id) is O(1) and lazy, exactly as the spec
describes.
-/

namespace RxVTS

/-- Modelled from the spec: the base scheduler's `comparer(a, b) -> {-1,0,1}`
total order over time values (the base `Scheduler` collaborator is not part
of the source under verification).  Standard numeric comparison. -/
def comparer (a b : Int) : Int := if a < b then -1 else if b < a then 1 else 0

/-- Modelled from the spec: the base scheduler's `add(time, delta) -> Time`
time-value addition (the base `Scheduler` collaborator is not part of the
source under verification). -/
def add (a b : Int) : Int := a + b

/-- Syntactic user functions `Int → Int` for the periodic helper's action
(kept first order so that states are decidably equal). -/
inductive PFn where
  | addConst (k : Int)
deriving DecidableEq, Repr

/-- Evaluation of a syntactic user function. -/
def PFn.eval : PFn → Int → Int
  | .addConst k, st => st + k

/-- The embedded scheduled actions. -/
inductive Act where
  /-- An action with no effect on the scheduler. -/
  | nop
  /-- An action that only observes the clock (the entry it pushes on the
  ghost trace carries `tag` as its output value). -/
  | record (tag : Int)
  /-- An action that calls `scheduler.stop()`. -/
  | stop
  /-- An action that invokes the cancellation handle of the item with
  id `target`. -/
  | cancel (target : Nat)
  /-- An action that calls `scheduleRelativeWithState` with relative due
  time `delta`, scheduling a `record tag` action. -/
  | schedule (delta : Int) (tag : Int)
  /-- One tick of the periodic recursion helper for chain `chainId`:
  if the chain is cancelled do nothing, otherwise run the user action `f`
  on `st` and reschedule at the current due time plus `period`. -/
  | periodicTick (chainId : Nat) (f : PFn) (period : Int) (st : Int)
deriving DecidableEq, Repr

/-- A scheduled item: insertion sequence number (also its identity and the
key of its cancellation flag), absolute due time, and action. -/
structure Item where
  id : Nat
  dueTime : Int
  action : Act
deriving DecidableEq, Repr

/-- Ghost record of one invocation: which item ran, its due time, the clock
it observed when running, and the action's output value (the tag of a
`record` action, the next state of a periodic tick, 0 otherwise). -/
structure TraceEntry where
  itemId : Nat
  due : Int
  obs : Int
  out : Int
deriving DecidableEq, Repr

/-- The full state of a virtual time scheduler, plus ghost fields. -/
structure SchedState where
  clock : Int
  isEnabled : Bool
  /-- The priority queue, kept as a list sorted by (dueTime, id). -/
  queue : List Item
  /-- Next insertion sequence number. -/
  nextId : Nat
  /-- Ids of items whose cancellation handle has been invoked. -/
  cancelSet : List Nat
  /-- Ids of periodic chains whose cancellation handle has been invoked. -/
  chainCancelSet : List Nat
  nextChainId : Nat
  /-- Ghost: invocation trace. -/
  trace : List TraceEntry
  /-- Ghost: some invoked action called `stop`. -/
  stopCalled : Bool
deriving DecidableEq, Repr

/-- A fresh scheduler with the given initial clock (the constructor:
`this.clock = initialClock; this.isEnabled = false; this.queue = new
PriorityQueue(1024)`). -/
def freshState (initialClock : Int) : SchedState :=
  ⟨initialClock, false, [], 0, [], [], 0, [], false⟩

/-- Modelled from the spec: the Event Queue's stable insert (the
`PriorityQueue` collaborator is not part of the source under verification).
Inserts before the first strictly later due time, so that equal due times
keep insertion order (§4.1: keyed by (dueTime, insertionSequence)). -/
def enqueue (it : Item) : List Item → List Item
  | [] => [it]
  | x :: xs => if comparer it.dueTime x.dueTime < 0 then it :: x :: xs else x :: enqueue it xs

/-- `scheduleAbsoluteWithState`: wrap the action into an item carrying a
fresh insertion sequence number and enqueue it; return the new state and
the item's id (standing for the returned disposable `si.disposable`). -/
def scheduleAbsoluteWithState (s : SchedState) (dueTime : Int) (a : Act) : SchedState × Nat :=
  ({ s with queue := enqueue ⟨s.nextId, dueTime, a⟩ s.queue, nextId := s.nextId + 1 }, s.nextId)

/-- `scheduleRelativeWithState`: `runAt = add(clock, dueTime)` then the
absolute form. -/
def scheduleRelativeWithState (s : SchedState) (dueTime : Int) (a : Act) : SchedState × Nat :=
  scheduleAbsoluteWithState s (add s.clock dueTime) a

/-- Modelled from the spec: invoking the cancellation handle of an item
(§4.2: sets `isCancelled = true`, never removes the item from the queue;
the `ScheduledItem`/disposable collaborators are not part of the source
under verification).  Embedded as adding the id to `cancelSet`. -/
def disposeItem (s : SchedState) (id : Nat) : SchedState :=
  { s with cancelSet := id :: s.cancelSet }

/-- Modelled from the spec: invoking the cancellation handle of a periodic
chain (§4.9: marks the chain cancelled, which the next tick observes before
rescheduling). -/
def disposeChain (s : SchedState) (cid : Nat) : SchedState :=
  { s with chainCancelSet := cid :: s.chainCancelSet }

/-- `stop()`: sets Running → Idle immediately. -/
def stop (s : SchedState) : SchedState := { s with isEnabled := false }

/-- The drain loop of `getNext`: while the queue is nonempty, peek; if the
minimum is cancelled, dequeue and discard it and continue; otherwise stop
(leaving the first non-cancelled item at the head). -/
def drain (cs : List Nat) : List Item → List Item
  | [] => []
  | x :: xs => if cs.contains x.id then drain cs xs else x :: xs

/-- `getNext()`: returns the first non-cancelled item (still at the head of
the queue, since the source peeks without dequeuing it) or `none`, together
with the state whose queue has had its cancelled prefix discarded. -/
def getNext (s : SchedState) : Option Item × SchedState :=
  ((drain s.cancelSet s.queue).head?, { s with queue := drain s.cancelSet s.queue })

/-- `queue.remove(si)`: remove a specific item (by identity = id). -/
def removeItem (id : Nat) (q : List Item) : List Item :=
  q.filter (fun x => x.id ≠ id)

/-- The action's output value, recorded on the ghost trace: the tag of a
`record`, the next state computed by a live periodic tick, 0 otherwise. -/
def actionOut (s : SchedState) : Act → Int
  | .record tag => tag
  | .periodicTick cid f _ st => if s.chainCancelSet.contains cid then st else f.eval st
  | _ => 0

/-- Ghost step: push the invocation record for item `it` (observing the
current clock) onto the trace. -/
def pushTrace (s : SchedState) (it : Item) : SchedState :=
  { s with trace := s.trace ++ [⟨it.id, it.dueTime, s.clock, actionOut s it.action⟩] }

/-- The effect of an invoked action on the scheduler (the item's wrapped
`run` has already removed the item from the queue).  `due` is the invoked
item's due time (a periodic tick reschedules at `due + period`, §4.9). -/
def runAction (s : SchedState) (due : Int) : Act → SchedState
  | .nop => s
  | .record _ => s
  | .stop => { s with isEnabled := false, stopCalled := true }
  | .cancel target => disposeItem s target
  | .schedule delta tag => (scheduleRelativeWithState s delta (.record tag)).1
  | .periodicTick cid f period st =>
      if s.chainCancelSet.contains cid then s
      else (scheduleAbsoluteWithState s (add due period) (.periodicTick cid f period (f.eval st))).1

/-- `next.invoke()`: per §4.2 and §5, a cancelled item is checked and
skipped; otherwise the item first removes itself from the queue
(`self.queue.remove(si)` inside the wrapped `run`), the invocation is
recorded on the ghost trace, and the action executes. -/
def invokeItem (s : SchedState) (it : Item) : SchedState :=
  if s.cancelSet.contains it.id then s
  else runAction (pushTrace { s with queue := removeItem it.id s.queue } it) it.dueTime it.action

/-- The conditional clock advance of both loops:
`if (this.comparer(next.dueTime, this.clock) > 0) { this.clock = next.dueTime; }`
(phrased as an update of the clock field alone; every other field is kept). -/
def advClock (next : Item) (s : SchedState) : SchedState :=
  { s with clock := if 0 < comparer next.dueTime s.clock then next.dueTime else s.clock }

/-- The shared shape of the two dispatch loops (`start` and `advanceTo`):
`do { next = getNext(); if (next != null && check(next)) { if
(comparer(next.dueTime, clock) > 0) clock = next.dueTime; next.invoke(); }
else isEnabled = false; } while (isEnabled)`, with fuel for the unbounded
iteration (`none` = fuel exhausted). -/
def runLoop (check : Item → Bool) : Nat → SchedState → Option SchedState
  | 0, _ => none
  | fuel + 1, s =>
    match getNext s with
    | (some next, s1) =>
      if check next then
        if (invokeItem (advClock next s1) next).isEnabled then
          runLoop check fuel (invokeItem (advClock next s1) next)
        else some (invokeItem (advClock next s1) next)
      else some { s1 with isEnabled := false }
    | (none, s1) => some { s1 with isEnabled := false }

/-- The loop of `start()`: every non-cancelled item qualifies. -/
def startLoop (fuel : Nat) (s : SchedState) : Option SchedState :=
  runLoop (fun _ => true) fuel s

/-- `start()`: no-op if already enabled, otherwise set `isEnabled` and run
the dispatch loop. -/
def start (fuel : Nat) (s : SchedState) : Option SchedState :=
  if s.isEnabled then some s else startLoop fuel { s with isEnabled := true }

/-- The qualification test of the `advanceTo` loop:
`comparer(next.dueTime, time) <= 0`. -/
def dueCheck (t : Int) (it : Item) : Bool := comparer it.dueTime t ≤ 0

/-- The loop of `advanceTo(time)`. -/
def advanceToLoop (t : Int) (fuel : Nat) (s : SchedState) : Option SchedState :=
  runLoop (dueCheck t) fuel s

/-- Result of a method that can throw `argumentOutOfRange`, with fuel
exhaustion separated out. -/
inductive VTResult where
  | ok (s : SchedState)
  | outOfRange
  | outOfFuel
deriving DecidableEq, Repr

/-- `advanceTo(time)`: throw if the clock is past `time`; return if equal;
if not enabled, enable, run the loop bounded by `time`, and afterwards set
`clock = time` unconditionally; if already enabled, fall through (no-op). -/
def advanceTo (t : Int) (fuel : Nat) (s : SchedState) : VTResult :=
  if 0 < comparer s.clock t then .outOfRange
  else if comparer s.clock t = 0 then .ok s
  else if s.isEnabled then .ok s
  else
    match advanceToLoop t fuel { s with isEnabled := true } with
    | some s1 => .ok { s1 with clock := t }
    | none => .outOfFuel

/-- `advanceBy(time)`: `dt = add(clock, time)`; throw if `dt` is before the
clock; return if equal; otherwise delegate to `advanceTo(dt)`. -/
def advanceBy (time : Int) (fuel : Nat) (s : SchedState) : VTResult :=
  if 0 < comparer s.clock (add s.clock time) then .outOfRange
  else if comparer s.clock (add s.clock time) = 0 then .ok s
  else advanceTo (add s.clock time) fuel s

/-- `sleep(time)`: `dt = add(clock, time)`; throw unless `dt` is strictly
later than the clock; otherwise set `clock = dt`. -/
def sleep (time : Int) (s : SchedState) : VTResult :=
  if 0 ≤ comparer s.clock (add s.clock time) then .outOfRange
  else .ok { s with clock := add s.clock time }

/-- Modelled from the spec: `schedulePeriodicWithState` via the
`SchedulePeriodicRecursive` helper (§4.9, not part of the source under
verification): allocate a chain, schedule the initial tick through
`scheduleRelativeWithState` at one period from now, and return the chain's
cancellation handle. -/
def schedulePeriodicWithState (s : SchedState) (st : Int) (period : Int) (f : PFn) :
    SchedState × Nat :=
  let cid := s.nextChainId
  ((scheduleRelativeWithState { s with nextChainId := cid + 1 } period
      (.periodicTick cid f period st)).1, cid)

/-- The ids of the items recorded on a trace. -/
def traceIds (l : List TraceEntry) : List Nat := l.map TraceEntry.itemId

/-- The exact clock-advance discipline of the dispatch loops, read off a
run's trace suffix: starting from clock `c`, each invocation observes the
item's due time if it is strictly later than the current clock and the
unchanged clock otherwise, and the observed value is the clock the next
invocation starts from. -/
def ObsChain : Int → List TraceEntry → Prop
  | _, [] => True
  | c, e :: rest => e.obs = (if c < e.due then e.due else c) ∧ ObsChain e.obs rest

/-- The ghost entry recorded when invoking a (non-cancelled) item in
state `s`. -/
def invEntry (s : SchedState) (it : Item) : TraceEntry :=
  ⟨it.id, it.dueTime, s.clock,
    actionOut { s with queue := removeItem it.id s.queue } it.action⟩

/-- The ordering key of the event queue: due time first, insertion sequence
as the tie break. -/
def keyLt (a b : Item) : Prop :=
  a.dueTime < b.dueTime ∨ (a.dueTime = b.dueTime ∧ a.id < b.id)

instance : DecidableRel keyLt := fun a b => by
  unfold keyLt
  infer_instance

/-- Well-formedness of a scheduler state: the queue is sorted by
(dueTime, id), carries pairwise distinct ids, and all ids are below the
fresh-id counter. -/
structure WF (s : SchedState) : Prop where
  sorted : s.queue.Pairwise keyLt
  nodup : (s.queue.map Item.id).Nodup
  idsLt : ∀ it ∈ s.queue, it.id < s.nextId

/-! ## Projections used to state concrete scenarios -/

/-- The state inside an `ok` result (default otherwise). -/
def okStateD (dflt : SchedState) : VTResult → SchedState
  | .ok s => s
  | _ => dflt

/-! ## Concrete states used by counterexamples and witnesses -/

/-- The C5 scenario: a fresh scheduler at clock 0 after
`schedulePeriodicWithState(0, 3, state => state + 1)`. -/
def c5Start : SchedState :=
  (schedulePeriodicWithState (freshState 0) 0 3 (.addConst 1)).1

/-- A scheduler whose first queued item (due 1) calls `stop()` and whose
second (due 2) merely observes the clock. -/
def cexStop : SchedState :=
  (scheduleAbsoluteWithState (scheduleAbsoluteWithState (freshState 0) 1 .stop).1
    2 (.record 5)).1

/-- A fresh scheduler at clock 0 after one `scheduleRelativeWithState` call
with a negative relative delay. -/
def cexNegDelay : SchedState :=
  (scheduleRelativeWithState (freshState 0) (-1) (.record 7)).1

/-- Two queued items of which the first (id 0, due 5) has been cancelled
before any run; the second (id 1, due 7) is live. -/
def c10State : SchedState :=
  disposeItem
    (scheduleAbsoluteWithState (scheduleAbsoluteWithState (freshState 0) 5 .nop).1
      7 (.record 1)).1 0

/-- Two queued items of which the first (id 0, due 1), when invoked,
invokes the cancellation handle of the second (id 1, due 2) — cancellation
happening in the middle of the dispatch loop's traversal. -/
def cexCancel : SchedState :=
  (scheduleAbsoluteWithState
    (scheduleAbsoluteWithState (freshState 0) 1 (.cancel 1)).1 2 (.record 5)).1

/-- The dispatch state of the `start` run over `cexCancel` right after its
first iteration: item 0 has been invoked (trace holds its entry, clock 1)
and its action has just cancelled the still-queued item 1. -/
def cexMid : SchedState :=
  ⟨1, true, [⟨1, 2, .record 5⟩], 2, [1], [], 0, [⟨0, 1, 1, 0⟩], false⟩

/-- One `scheduleRelativeWithState` call per relative delay, in order,
each scheduling a pure observer action. -/
def scheduleObs (s : SchedState) : List Int → SchedState
  | [] => s
  | d :: ds => scheduleObs (scheduleRelativeWithState s d (.record 0)).1 ds

/-- The items `scheduleObs` creates, written out: consecutive ids from `i`,
due times `c0 + d`. -/
def mkItems (c0 : Int) (i : Nat) : List Int → List Item
  | [] => []
  | d :: ds => ⟨i, add c0 d, .record 0⟩ :: mkItems c0 (i + 1) ds

/-- The tag carried by an observer item. -/
def tagOf (x : Item) : Int :=
  match x.action with
  | .record tag => tag
  | _ => 0

/-- The trace entry produced by invoking an observer item exactly at its
due time. -/
def obsEntry (x : Item) : TraceEntry := ⟨x.id, x.dueTime, x.dueTime, tagOf x⟩

/-! ## Comparer bridge lemmas -/

theorem comparer_pos_iff {a b : Int} : 0 < comparer a b ↔ b < a := by
  unfold comparer; split <;> rename_i h₁
  · simp; omega
  · split <;> rename_i h₂ <;> simp <;> omega

theorem comparer_eq_zero_iff {a b : Int} : comparer a b = 0 ↔ a = b := by
  unfold comparer; split <;> rename_i h₁
  · simp; omega
  · split <;> rename_i h₂ <;> simp <;> omega

theorem comparer_neg_iff {a b : Int} : comparer a b < 0 ↔ a < b := by
  unfold comparer; split <;> rename_i h₁
  · simp; omega
  · split <;> rename_i h₂ <;> simp <;> omega

theorem comparer_nonpos_iff {a b : Int} : comparer a b ≤ 0 ↔ a ≤ b := by
  unfold comparer; split <;> rename_i h₁
  · simp; omega
  · split <;> rename_i h₂ <;> simp <;> omega

theorem comparer_nonneg_iff {a b : Int} : 0 ≤ comparer a b ↔ b ≤ a := by
  unfold comparer; split <;> rename_i h₁
  · simp; omega
  · split <;> rename_i h₂ <;> simp <;> omega

/-! ## Claim C5 -/

/-- Claim C5: on a scheduler with clock 0, `schedulePeriodicWithState(0, 3,
state => state + 1)` followed by `advanceTo(10)` invokes the action exactly
at virtual times 3, 6, 9 producing states 1, 2, 3 (each tick rescheduling
at its due time plus the period), and returns with the clock exactly 10. -/
theorem c5_periodic_scenario :
    (okStateD (freshState 0) (advanceTo 10 6 c5Start)).trace.map
        (fun e => (e.due, e.obs, e.out)) = [(3, 3, 1), (6, 6, 2), (9, 9, 3)] ∧
    (okStateD (freshState 0) (advanceTo 10 6 c5Start)).clock = 10 ∧
    advanceTo 10 6 c5Start = .ok (okStateD (freshState 0) (advanceTo 10 6 c5Start)) := by
  decide

/-! ## Claim C6 -/

/-- Claim C6: `sleep(time)` computes `dt = add(clock, time)` and fails with
`OutOfRange` iff `dt` is not strictly later than the clock (in particular
whenever `time ≤ 0`); otherwise it sets the clock to exactly `dt`, leaving
the queue unchanged and invoking nothing (trace unchanged). -/
theorem c6_sleep_spec (time : Int) (s : SchedState) :
    (sleep time s = .outOfRange ↔ ¬ s.clock < add s.clock time) ∧
    (time ≤ 0 → sleep time s = .outOfRange) ∧
    (∀ s1, sleep time s = .ok s1 →
      s1.clock = add s.clock time ∧ s1.queue = s.queue ∧ s1.trace = s.trace) := by
  refine ⟨?_, ?_, ?_⟩
  · unfold sleep
    split <;> rename_i h
    · simpa using comparer_nonneg_iff.1 h
    · simp only [not_le] at h
      simp only [reduceCtorEq, false_iff, not_not]
      exact comparer_neg_iff.1 h
  · intro h
    unfold sleep
    rw [if_pos]
    exact comparer_nonneg_iff.2 (by unfold add; omega)
  · intro s1 h
    unfold sleep at h
    split at h
    · exact absurd h (by simp)
    · simp only [VTResult.ok.injEq] at h
      subst h
      exact ⟨rfl, rfl, rfl⟩

/-- Witness for C6 at concrete inputs. -/
theorem c6_sleep_witness :
    sleep (-1) (freshState 5) = .outOfRange ∧
    ({ freshState 5 with clock := 7 }.clock = add (freshState 5).clock 2 ∧
      { freshState 5 with clock := 7 }.queue = (freshState 5).queue ∧
      { freshState 5 with clock := 7 }.trace = (freshState 5).trace) :=
  ⟨(c6_sleep_spec (-1) (freshState 5)).2.1 (by decide),
   (c6_sleep_spec 2 (freshState 5)).2.2 { freshState 5 with clock := 7 } (by decide)⟩

/-! ## Claim C7 -/

/-- Claim C7: `advanceBy(time)` computes `dt = add(clock, time)`; it fails
with `OutOfRange` exactly when `dt` is earlier than the clock (the error is
raised before any mutation, so the state is untouched), is a no-op when
`dt` equals the clock, and otherwise is exactly `advanceTo(dt)`. -/
theorem advanceTo_ne_outOfRange (t : Int) (fuel : Nat) (s : SchedState)
    (h : s.clock ≤ t) : advanceTo t fuel s ≠ .outOfRange := by
  unfold advanceTo
  rw [if_neg (fun hb => absurd (comparer_pos_iff.1 hb) (not_lt.2 h))]
  split
  · simp
  · split
    · simp
    · split <;> simp

/-- Claim C7: `advanceBy(time)` computes `dt = add(clock, time)`; it fails
with `OutOfRange` exactly when `dt` is earlier than the clock (the error is
raised before any mutation, so the state is untouched), is a no-op when
`dt` equals the clock, and otherwise is exactly `advanceTo(dt)`. -/
theorem c7_advanceBy_spec (time : Int) (fuel : Nat) (s : SchedState) :
    (advanceBy time fuel s = .outOfRange ↔ add s.clock time < s.clock) ∧
    (add s.clock time = s.clock → advanceBy time fuel s = .ok s) ∧
    (s.clock < add s.clock time →
      advanceBy time fuel s = advanceTo (add s.clock time) fuel s) := by
  refine ⟨⟨?_, ?_⟩, ?_, ?_⟩
  · intro hbad
    unfold advanceBy at hbad
    split at hbad
    · rename_i h
      exact comparer_pos_iff.1 h
    · split at hbad
      · exact absurd hbad (by simp)
      · rename_i h1 h2
        exact absurd hbad
          (advanceTo_ne_outOfRange _ fuel s (comparer_nonpos_iff.1 (not_lt.1 h1)))
  · intro hb
    unfold advanceBy
    rw [if_pos (comparer_pos_iff.2 hb)]
  · intro h
    unfold advanceBy
    rw [if_neg (by rw [not_lt]; exact comparer_nonpos_iff.2 (le_of_eq h.symm)),
      if_pos (comparer_eq_zero_iff.2 h.symm)]
  · intro h
    unfold advanceBy
    rw [if_neg (by rw [not_lt]; exact comparer_nonpos_iff.2 (le_of_lt h)),
      if_neg (fun hz => absurd (comparer_eq_zero_iff.1 hz) (by omega))]

/-- Witness for C7 at concrete inputs. -/
theorem c7_advanceBy_witness :
    advanceBy 0 3 (freshState 4) = .ok (freshState 4) ∧
    advanceBy 2 3 (freshState 4) = advanceTo (add (freshState 4).clock 2) 3 (freshState 4) :=
  ⟨(c7_advanceBy_spec 0 3 (freshState 4)).2.1 (by decide),
   (c7_advanceBy_spec 2 3 (freshState 4)).2.2 (by decide)⟩

/-! ## Claim C9 -/

/-- Claim C9: in `advanceTo`, the backward-time check and the
clock-equality early return precede the re-entrancy guard: with `t` earlier
than the clock it fails with `OutOfRange` even while a run loop is active,
with `t` equal to the clock it returns unchanged even while active, and the
re-entrant no-op applies (only) to targets strictly later than the clock. -/
theorem c9_advanceTo_check_order (t : Int) (fuel : Nat) (s : SchedState) :
    (t < s.clock → advanceTo t fuel s = .outOfRange) ∧
    (t = s.clock → advanceTo t fuel s = .ok s) ∧
    (s.isEnabled = true → s.clock < t → advanceTo t fuel s = .ok s) := by
  refine ⟨?_, ?_, ?_⟩
  · intro h
    unfold advanceTo
    rw [if_pos (comparer_pos_iff.2 h)]
  · intro h
    unfold advanceTo
    rw [if_neg (by rw [comparer_eq_zero_iff.2 h.symm]; omega),
      if_pos (comparer_eq_zero_iff.2 h.symm)]
  · intro hen h
    unfold advanceTo
    rw [if_neg (by rw [show comparer s.clock t = -1 from by unfold comparer; simp [h]]; omega),
      if_neg (by rw [show comparer s.clock t = -1 from by unfold comparer; simp [h]]; omega),
      if_pos hen]

/-- Witness for C9 at concrete inputs with the run loop active. -/
theorem c9_advanceTo_check_order_witness :
    advanceTo 1 3 { freshState 2 with isEnabled := true } = .outOfRange ∧
    advanceTo 2 3 { freshState 2 with isEnabled := true } =
      .ok { freshState 2 with isEnabled := true } ∧
    advanceTo 9 3 { freshState 2 with isEnabled := true } =
      .ok { freshState 2 with isEnabled := true } :=
  ⟨(c9_advanceTo_check_order 1 3 _).1 (by decide),
   (c9_advanceTo_check_order 2 3 _).2.1 (by decide),
   (c9_advanceTo_check_order 9 3 _).2.2 (by decide) (by decide)⟩

/-! ## Counterexamples to claims C1 and C3 as stated -/

/-- Claim C1 as stated is false.  First part: on a state with the run loop
already active (`isEnabled = true`), `advanceTo(1)` from clock 0 returns
with the clock still 0, not 1 (the re-entrancy guard makes it a no-op).
Second part: on an idle scheduler holding a `stop()`-calling item at due
time 1 and an ordinary item at due time 2, `advanceTo(5)` returns (with
clock 5) without ever invoking the never-cancelled item of due time 2 ≤ 5:
item id 1 is absent from the invocation trace. -/
theorem c1_counterexample :
    (advanceTo 1 5 { freshState 0 with isEnabled := true } =
        .ok { freshState 0 with isEnabled := true } ∧
      ({ freshState 0 with isEnabled := true } : SchedState).clock ≠ 1) ∧
    ((⟨1, 2, .record 5⟩ : Item) ∈ cexStop.queue ∧ cexStop.cancelSet = [] ∧
      cexStop.isEnabled = false ∧ cexStop.clock = 0 ∧
      advanceTo 5 10 cexStop = .ok (okStateD (freshState 0) (advanceTo 5 10 cexStop)) ∧
      (okStateD (freshState 0) (advanceTo 5 10 cexStop)).cancelSet = [] ∧
      1 ∉ traceIds (okStateD (freshState 0) (advanceTo 5 10 cexStop)).trace) := by
  decide

/-- Claim C3 as stated is false: after a single `scheduleRelativeWithState`
call with relative delay -1 on a fresh scheduler at clock 0 (due time -1),
`start()` invokes the action with the clock at 0, not at its due time -1. -/
theorem c3_counterexample :
    cexNegDelay.queue = [⟨0, -1, .record 7⟩] ∧
    start 5 cexNegDelay = some ((start 5 cexNegDelay).getD (freshState 0)) ∧
    ((start 5 cexNegDelay).getD (freshState 0)).trace = [⟨0, -1, 0, 7⟩] ∧
    ((0 : Int) ≠ -1) := by
  decide

/-! ## Event queue lemmas -/

theorem mem_enqueue {a it : Item} {q : List Item} :
    a ∈ enqueue it q ↔ a = it ∨ a ∈ q := by
  induction q with
  | nil => simp [enqueue]
  | cons x xs ih =>
    unfold enqueue
    split
    · simp [List.mem_cons]
    · simp only [List.mem_cons, ih]
      tauto

theorem enqueue_perm (it : Item) (q : List Item) :
    List.Perm (enqueue it q) (it :: q) := by
  induction q with
  | nil => simp [enqueue]
  | cons x xs ih =>
    unfold enqueue
    split
    · exact List.Perm.refl _
    · exact (ih.cons x).trans (List.Perm.swap it x xs)

theorem enqueue_pairwise {it : Item} {q : List Item}
    (hs : q.Pairwise keyLt) (hid : ∀ x ∈ q, x.id < it.id) :
    (enqueue it q).Pairwise keyLt := by
  induction q with
  | nil => simp [enqueue]
  | cons x xs ih =>
    rw [List.pairwise_cons] at hs
    unfold enqueue
    split
    · rename_i hc
      have hx : it.dueTime < x.dueTime := comparer_neg_iff.1 hc
      rw [List.pairwise_cons]
      refine ⟨?_, List.pairwise_cons.2 hs⟩
      intro y hy
      rcases List.mem_cons.1 hy with rfl | hy'
      · exact Or.inl hx
      · rcases hs.1 y hy' with h | ⟨he, _⟩
        · exact Or.inl (hx.trans h)
        · exact Or.inl (he ▸ hx)
    · rename_i hc
      rw [List.pairwise_cons]
      refine ⟨?_, ih hs.2 (fun z hz => hid z (List.mem_cons_of_mem x hz))⟩
      intro y hy
      rcases mem_enqueue.1 hy with rfl | hy'
      · have hle : x.dueTime ≤ y.dueTime := by
          by_contra hgt
          push_neg at hgt
          exact hc (comparer_neg_iff.2 hgt)
        rcases lt_or_eq_of_le hle with h | h
        · exact Or.inl h
        · exact Or.inr ⟨h, hid x (List.mem_cons_self x xs)⟩
      · exact hs.1 y hy'

theorem drain_eq_dropWhile (cs : List Nat) (q : List Item) :
    drain cs q = q.dropWhile (fun x => cs.contains x.id) := by
  induction q with
  | nil => rfl
  | cons x xs ih =>
    unfold drain
    cases h : cs.contains x.id
    · rw [if_neg (by simp [h]), List.dropWhile_cons_of_neg (by simpa using h)]
    · rw [if_pos (by simp [h]), List.dropWhile_cons_of_pos (by simpa using h), ih]

theorem drain_sublist (cs : List Nat) (q : List Item) :
    (drain cs q).Sublist q := by
  rw [drain_eq_dropWhile]
  exact List.dropWhile_sublist _

theorem mem_of_mem_drain {cs : List Nat} {q : List Item} {x : Item}
    (hx : x ∈ drain cs q) : x ∈ q :=
  (drain_sublist cs q).mem hx

theorem mem_drain {cs : List Nat} {q : List Item} {x : Item}
    (hx : x ∈ q) (hnc : cs.contains x.id = false) : x ∈ drain cs q := by
  induction q with
  | nil => cases hx
  | cons y ys ih =>
    unfold drain
    split
    · rename_i hy
      rcases List.mem_cons.1 hx with rfl | h
      · rw [hnc] at hy
        exact (Bool.false_ne_true hy).elim
      · exact ih h
    · exact hx

theorem drain_head {cs : List Nat} {q : List Item} {x : Item} {rest : List Item}
    (h : drain cs q = x :: rest) : cs.contains x.id = false := by
  induction q with
  | nil => cases h
  | cons y ys ih =>
    unfold drain at h
    split at h
    · exact ih h
    · rename_i hy
      cases h
      simpa using hy

theorem mem_removeItem {x : Item} {id : Nat} {q : List Item} :
    x ∈ removeItem id q ↔ x ∈ q ∧ x.id ≠ id := by
  simp [removeItem, List.mem_filter]

theorem removeItem_sublist (id : Nat) (q : List Item) :
    (removeItem id q).Sublist q :=
  List.filter_sublist q

theorem removeItem_cons_self {x : Item} {xs : List Item}
    (h : ∀ y ∈ xs, y.id ≠ x.id) : removeItem x.id (x :: xs) = xs := by
  unfold removeItem
  rw [List.filter_cons_of_neg (by simp)]
  exact List.filter_eq_self.2 (fun y hy => by simpa using h y hy)

/-! ## Step lemmas: scheduling, actions, invocation -/

theorem scheduleAbsWF {s : SchedState} {due : Int} {a : Act}
    (hs : s.queue.Pairwise keyLt) (hn : (s.queue.map Item.id).Nodup)
    (hlt : ∀ it ∈ s.queue, it.id < s.nextId) :
    (scheduleAbsoluteWithState s due a).1.queue.Pairwise keyLt ∧
    ((scheduleAbsoluteWithState s due a).1.queue.map Item.id).Nodup ∧
    (∀ it ∈ (scheduleAbsoluteWithState s due a).1.queue,
      it.id < (scheduleAbsoluteWithState s due a).1.nextId) := by
  unfold scheduleAbsoluteWithState
  refine ⟨enqueue_pairwise hs (fun x hx => hlt x hx), ?_, ?_⟩
  · have hperm := (enqueue_perm ⟨s.nextId, due, a⟩ s.queue).map Item.id
    rw [hperm.nodup_iff]
    simp only [List.map_cons, List.nodup_cons]
    exact ⟨fun hmem => by
      rcases List.mem_map.1 hmem with ⟨y, hy, hyid⟩
      exact absurd hyid (Nat.ne_of_gt (hlt y hy)).symm, hn⟩
  · intro it hit
    rcases mem_enqueue.1 hit with rfl | h
    · exact Nat.lt_succ_self _
    · exact Nat.lt_succ_of_lt (hlt it h)

theorem runAction_clock (s : SchedState) (due : Int) (a : Act) :
    (runAction s due a).clock = s.clock := by
  cases a <;>
    simp only [runAction, disposeItem, scheduleRelativeWithState,
      scheduleAbsoluteWithState] <;>
    first
      | rfl
      | (split <;> rfl)

theorem runAction_trace (s : SchedState) (due : Int) (a : Act) :
    (runAction s due a).trace = s.trace := by
  cases a <;>
    simp only [runAction, disposeItem, scheduleRelativeWithState,
      scheduleAbsoluteWithState] <;>
    first
      | rfl
      | (split <;> rfl)

theorem runAction_cancel_mono (s : SchedState) (due : Int) (a : Act) :
    ∀ x ∈ s.cancelSet, x ∈ (runAction s due a).cancelSet := by
  cases a <;>
    simp only [runAction, disposeItem, scheduleRelativeWithState,
      scheduleAbsoluteWithState] <;>
    first
      | exact fun x hx => hx
      | exact fun x hx => List.mem_cons_of_mem _ hx
      | (split <;> exact fun x hx => hx)

theorem runAction_stop_mono (s : SchedState) (due : Int) (a : Act)
    (h : s.stopCalled = true) : (runAction s due a).stopCalled = true := by
  cases a <;>
    simp only [runAction, disposeItem, scheduleRelativeWithState,
      scheduleAbsoluteWithState] <;>
    first
      | exact h
      | (split <;> exact h)

theorem runAction_isEnabled (s : SchedState) (due : Int) (a : Act)
    (hen : s.isEnabled = true)
    (h : (runAction s due a).isEnabled = false) :
    (runAction s due a).stopCalled = true := by
  cases a
  case stop => rfl
  case periodicTick =>
    simp only [runAction] at h
    split at h
    · exact absurd h (by simp [hen])
    · exact absurd h (by simp [scheduleAbsoluteWithState, hen])
  all_goals
    exact absurd h (by simp [runAction, disposeItem, scheduleRelativeWithState,
      scheduleAbsoluteWithState, hen])

theorem runAction_queue_mono (s : SchedState) (due : Int) (a : Act) :
    ∀ x ∈ s.queue, x ∈ (runAction s due a).queue := by
  cases a <;>
    simp only [runAction, disposeItem, scheduleRelativeWithState,
      scheduleAbsoluteWithState] <;>
    first
      | exact fun x hx => hx
      | exact fun x hx => mem_enqueue.2 (Or.inr hx)
      | (split <;> first
          | exact fun x hx => hx
          | exact fun x hx => mem_enqueue.2 (Or.inr hx))

theorem runAction_WFq {s : SchedState} (due : Int) (a : Act)
    (hs : s.queue.Pairwise keyLt) (hn : (s.queue.map Item.id).Nodup)
    (hlt : ∀ it ∈ s.queue, it.id < s.nextId) :
    (runAction s due a).queue.Pairwise keyLt ∧
    ((runAction s due a).queue.map Item.id).Nodup ∧
    (∀ it ∈ (runAction s due a).queue, it.id < (runAction s due a).nextId) := by
  cases a <;>
    simp only [runAction, disposeItem, scheduleRelativeWithState]
  case nop => exact ⟨hs, hn, hlt⟩
  case record => exact ⟨hs, hn, hlt⟩
  case stop => exact ⟨hs, hn, hlt⟩
  case cancel => exact ⟨hs, hn, hlt⟩
  case schedule => exact scheduleAbsWF hs hn hlt
  case periodicTick =>
    split
    · exact ⟨hs, hn, hlt⟩
    · exact scheduleAbsWF hs hn hlt

theorem invokeItem_not_cancelled {s : SchedState} {it : Item}
    (h : s.cancelSet.contains it.id = false) :
    invokeItem s it =
      runAction (pushTrace { s with queue := removeItem it.id s.queue } it)
        it.dueTime it.action := by
  unfold invokeItem
  rw [if_neg (by rw [h]; exact Bool.false_ne_true)]

theorem invokeItem_clock (s : SchedState) (it : Item) :
    (invokeItem s it).clock = s.clock := by
  unfold invokeItem
  split
  · rfl
  · rw [runAction_clock]
    rfl

theorem invokeItem_cancel_mono (s : SchedState) (it : Item) :
    ∀ x ∈ s.cancelSet, x ∈ (invokeItem s it).cancelSet := by
  unfold invokeItem
  split
  · exact fun x hx => hx
  · intro x hx
    exact runAction_cancel_mono _ _ _ x hx

theorem invokeItem_stop_mono (s : SchedState) (it : Item)
    (h : s.stopCalled = true) : (invokeItem s it).stopCalled = true := by
  unfold invokeItem
  split
  · exact h
  · exact runAction_stop_mono _ _ _ h

theorem invokeItem_isEnabled (s : SchedState) (it : Item)
    (hen : s.isEnabled = true)
    (h : (invokeItem s it).isEnabled = false) :
    (invokeItem s it).stopCalled = true := by
  unfold invokeItem at h ⊢
  split at h
  · exact absurd h (by simp [hen])
  · rename_i hnc
    rw [if_neg hnc]
    exact runAction_isEnabled _ _ _ (by simpa [pushTrace] using hen) h

theorem invokeItem_trace {s : SchedState} {it : Item}
    (h : s.cancelSet.contains it.id = false) :
    (invokeItem s it).trace =
      s.trace ++ [⟨it.id, it.dueTime, s.clock,
        actionOut { s with queue := removeItem it.id s.queue } it.action⟩] := by
  rw [invokeItem_not_cancelled h, runAction_trace]
  rfl

theorem invokeItem_trace_mono (s : SchedState) (it : Item) :
    ∀ e ∈ s.trace, e ∈ (invokeItem s it).trace := by
  unfold invokeItem
  split
  · exact fun e he => he
  · intro e he
    rw [runAction_trace]
    exact List.mem_append_left _ he

/-! ## Clock advance lemmas -/

theorem advClock_queue (next : Item) (s : SchedState) :
    (advClock next s).queue = s.queue := rfl

theorem advClock_cancelSet (next : Item) (s : SchedState) :
    (advClock next s).cancelSet = s.cancelSet := rfl

theorem advClock_trace (next : Item) (s : SchedState) :
    (advClock next s).trace = s.trace := rfl

theorem advClock_isEnabled (next : Item) (s : SchedState) :
    (advClock next s).isEnabled = s.isEnabled := rfl

theorem advClock_stopCalled (next : Item) (s : SchedState) :
    (advClock next s).stopCalled = s.stopCalled := rfl

theorem advClock_nextId (next : Item) (s : SchedState) :
    (advClock next s).nextId = s.nextId := rfl

theorem advClock_clock_le (next : Item) (s : SchedState) :
    s.clock ≤ (advClock next s).clock := by
  show s.clock ≤ if 0 < comparer next.dueTime s.clock then next.dueTime else s.clock
  split
  · rename_i h
    exact le_of_lt (comparer_pos_iff.1 h)
  · exact le_refl _

theorem advClock_due_le (next : Item) (s : SchedState) :
    next.dueTime ≤ (advClock next s).clock := by
  show next.dueTime ≤ if 0 < comparer next.dueTime s.clock then next.dueTime else s.clock
  split
  · exact le_refl _
  · rename_i h
    rw [not_lt] at h
    exact comparer_nonpos_iff.1 h

theorem advClock_clock_le_due (next : Item) (s : SchedState)
    (h : s.clock ≤ next.dueTime) : (advClock next s).clock = next.dueTime := by
  show (if 0 < comparer next.dueTime s.clock then next.dueTime else s.clock) = next.dueTime
  split
  · rfl
  · rename_i hc
    rw [not_lt] at hc
    exact le_antisymm (comparer_nonpos_iff.1 hc) h |>.symm

/-! ## Loop unfolding lemmas -/

theorem runLoop_succ_nil {check : Item → Bool} {fuel : Nat} {s : SchedState}
    (h : drain s.cancelSet s.queue = []) :
    runLoop check (fuel + 1) s = some { s with queue := [], isEnabled := false } := by
  unfold runLoop getNext
  rw [h]
  rfl

theorem runLoop_succ_cons {check : Item → Bool} {fuel : Nat} {s : SchedState}
    {next : Item} {rest : List Item}
    (h : drain s.cancelSet s.queue = next :: rest) :
    runLoop check (fuel + 1) s =
      if check next then
        if (invokeItem (advClock next { s with queue := next :: rest }) next).isEnabled then
          runLoop check fuel (invokeItem (advClock next { s with queue := next :: rest }) next)
        else some (invokeItem (advClock next { s with queue := next :: rest }) next)
      else some { s with queue := next :: rest, isEnabled := false } := by
  conv_lhs => rw [runLoop]
  simp only [getNext]
  rw [h]
  rfl

theorem contains_iff {cs : List Nat} {i : Nat} : cs.contains i = true ↔ i ∈ cs := by
  induction cs with
  | nil => simp
  | cons c cs ih => simp [List.contains_cons, ih]

theorem advClock_clock_eq (next : Item) (s : SchedState) :
    (advClock next s).clock =
      if s.clock < next.dueTime then next.dueTime else s.clock := by
  show (if 0 < comparer next.dueTime s.clock then next.dueTime else s.clock) = _
  by_cases hc : s.clock < next.dueTime
  · rw [if_pos (comparer_pos_iff.2 hc), if_pos hc]
  · rw [if_neg (fun hb => hc (comparer_pos_iff.1 hb)), if_neg hc]

theorem invokeItem_trace_invEntry {s : SchedState} {it : Item}
    (h : s.cancelSet.contains it.id = false) :
    (invokeItem s it).trace = s.trace ++ [invEntry s it] :=
  invokeItem_trace h

theorem getNext_min {s : SchedState} (hp : s.queue.Pairwise keyLt) :
    (∀ next, (getNext s).1 = some next →
      next ∈ s.queue ∧ s.cancelSet.contains next.id = false ∧
      ∀ x ∈ s.queue, s.cancelSet.contains x.id = false → next = x ∨ keyLt next x) ∧
    ((getNext s).1 = none → ∀ x ∈ s.queue, s.cancelSet.contains x.id = true) := by
  constructor
  · intro next hg
    have hg1 : (drain s.cancelSet s.queue).head? = some next := hg
    rcases hdr : drain s.cancelSet s.queue with _ | ⟨nx, rest⟩
    · rw [hdr] at hg1
      cases hg1
    · rw [hdr] at hg1
      rcases Option.some.inj hg1 with rfl
      refine ⟨mem_of_mem_drain (by rw [hdr]; exact List.mem_cons_self nx rest),
        drain_head hdr, ?_⟩
      intro x hx hxnc
      have hxd : x ∈ drain s.cancelSet s.queue := mem_drain hx hxnc
      rw [hdr] at hxd
      rcases List.mem_cons.1 hxd with rfl | hxr
      · exact Or.inl rfl
      · have hpD : (nx :: rest).Pairwise keyLt :=
          List.Pairwise.sublist (hdr ▸ drain_sublist s.cancelSet s.queue) hp
        exact Or.inr ((List.pairwise_cons.1 hpD).1 x hxr)
  · intro hg x hx
    rcases hdr : drain s.cancelSet s.queue with _ | ⟨nx, rest⟩
    · cases hcs : s.cancelSet.contains x.id
      · have hxd := mem_drain hx hcs
        rw [hdr] at hxd
        cases hxd
      · rfl
    · have hg1 : (drain s.cancelSet s.queue).head? = none := hg
      rw [hdr] at hg1
      cases hg1

theorem startLoop_step {fuel : Nat} {s s1 : SchedState} {next : Item}
    (hg : getNext s = (some next, s1)) :
    startLoop (fuel + 1) s =
      if (invokeItem (advClock next s1) next).isEnabled then
        startLoop fuel (invokeItem (advClock next s1) next)
      else some (invokeItem (advClock next s1) next) := by
  unfold startLoop
  conv_lhs => rw [runLoop]
  rw [hg]
  rfl

theorem runLoop_obsChain {check : Item → Bool} :
    ∀ {fuel : Nat} {s s' : SchedState}, runLoop check fuel s = some s' →
      ∃ new, s'.trace = s.trace ++ new ∧ ObsChain s.clock new := by
  intro fuel
  induction fuel with
  | zero =>
    intro s s' h
    exact absurd h (by simp [runLoop])
  | succ fuel ih =>
    intro s s' h
    rcases hdr : drain s.cancelSet s.queue with _ | ⟨next, rest⟩
    · rw [runLoop_succ_nil hdr] at h
      rcases Option.some.inj h with rfl
      exact ⟨[], by simp, trivial⟩
    · rw [runLoop_succ_cons hdr] at h
      have hncN : s.cancelSet.contains next.id = false := drain_head hdr
      have htr := @invokeItem_trace_invEntry (advClock next { s with queue := next :: rest })
        next (by rw [advClock_cancelSet]; exact hncN)
      have hclk3 : (invokeItem (advClock next { s with queue := next :: rest }) next).clock
          = (advClock next { s with queue := next :: rest }).clock :=
        invokeItem_clock _ _
      split at h
      · split at h
        · rcases ih h with ⟨new, hnew, hchain⟩
          refine ⟨invEntry (advClock next { s with queue := next :: rest }) next :: new,
            ?_, ?_, ?_⟩
          · rw [hnew, htr, List.append_assoc]
            rfl
          · show (advClock next { s with queue := next :: rest }).clock
              = if s.clock < next.dueTime then next.dueTime else s.clock
            exact advClock_clock_eq next _
          · rw [hclk3] at hchain
            exact hchain
        · rcases Option.some.inj h with rfl
          refine ⟨[invEntry (advClock next { s with queue := next :: rest }) next],
            ?_, ?_, trivial⟩
          · rw [htr]
            rfl
          · show (advClock next { s with queue := next :: rest }).clock
              = if s.clock < next.dueTime then next.dueTime else s.clock
            exact advClock_clock_eq next _
      · rcases Option.some.inj h with rfl
        exact ⟨[], by simp, trivial⟩

/-! ## Loop invariants -/

theorem runLoop_mono {check : Item → Bool} :
    ∀ {fuel : Nat} {s s' : SchedState}, runLoop check fuel s = some s' →
      s.clock ≤ s'.clock ∧ (∀ x ∈ s.cancelSet, x ∈ s'.cancelSet) ∧
      (∀ e ∈ s.trace, e ∈ s'.trace) ∧ (s.stopCalled = true → s'.stopCalled = true) := by
  intro fuel
  induction fuel with
  | zero =>
    intro s s' h
    exact absurd h (by simp [runLoop])
  | succ fuel ih =>
    intro s s' h
    rcases hdr : drain s.cancelSet s.queue with _ | ⟨next, rest⟩
    · rw [runLoop_succ_nil hdr] at h
      rcases Option.some.inj h with rfl
      exact ⟨le_refl _, fun x hx => hx, fun e he => he, fun hs => hs⟩
    · rw [runLoop_succ_cons hdr] at h
      have hstep :
          s.clock ≤ (invokeItem (advClock next { s with queue := next :: rest }) next).clock ∧
          (∀ x ∈ s.cancelSet,
            x ∈ (invokeItem (advClock next { s with queue := next :: rest }) next).cancelSet) ∧
          (∀ e ∈ s.trace,
            e ∈ (invokeItem (advClock next { s with queue := next :: rest }) next).trace) ∧
          (s.stopCalled = true →
            (invokeItem (advClock next { s with queue := next :: rest }) next).stopCalled
              = true) := by
        refine ⟨?_, ?_, ?_, ?_⟩
        · rw [invokeItem_clock]
          exact advClock_clock_le next _
        · intro x hx
          apply invokeItem_cancel_mono
          rw [advClock_cancelSet]
          exact hx
        · intro e he
          apply invokeItem_trace_mono
          rw [advClock_trace]
          exact he
        · intro hs
          apply invokeItem_stop_mono
          rw [advClock_stopCalled]
          exact hs
      split at h
      · split at h
        · have hrec := ih h
          exact ⟨hstep.1.trans hrec.1,
            fun x hx => hrec.2.1 x (hstep.2.1 x hx),
            fun e he => hrec.2.2.1 e (hstep.2.2.1 e he),
            fun hs => hrec.2.2.2 (hstep.2.2.2 hs)⟩
        · rcases Option.some.inj h with rfl
          exact hstep
      · rcases Option.some.inj h with rfl
        exact ⟨le_refl _, fun x hx => hx, fun e he => he, fun hs => hs⟩

theorem runLoop_traceIds_mono {check : Item → Bool} {fuel : Nat} {s s' : SchedState} {i : Nat}
    (h : runLoop check fuel s = some s') (hi : i ∈ traceIds s.trace) :
    i ∈ traceIds s'.trace := by
  rcases List.mem_map.1 hi with ⟨e, he, rfl⟩
  exact List.mem_map.2 ⟨e, (runLoop_mono h).2.2.1 e he, rfl⟩

theorem runLoop_cancelled_silent {check : Item → Bool} :
    ∀ {fuel : Nat} {s s' : SchedState} {i : Nat},
      runLoop check fuel s = some s' → i ∈ s.cancelSet →
      i ∉ traceIds s.trace → i ∉ traceIds s'.trace := by
  intro fuel
  induction fuel with
  | zero =>
    intro s s' i h
    exact absurd h (by simp [runLoop])
  | succ fuel ih =>
    intro s s' i h hi hni
    rcases hdr : drain s.cancelSet s.queue with _ | ⟨next, rest⟩
    · rw [runLoop_succ_nil hdr] at h
      rcases Option.some.inj h with rfl
      exact hni
    · rw [runLoop_succ_cons hdr] at h
      have hncnext : s.cancelSet.contains next.id = false := drain_head hdr
      have hne : next.id ≠ i := by
        intro he
        rw [he] at hncnext
        exact absurd hi (by rw [← contains_iff, hncnext]; exact Bool.false_ne_true)
      set Z := advClock next { s with queue := next :: rest } with hZ
      have htr := @invokeItem_trace Z next (by rw [hZ, advClock_cancelSet]; exact hncnext)
      have hnotin3 : i ∉ traceIds (invokeItem Z next).trace := by
        rw [htr]
        unfold traceIds
        rw [List.map_append]
        intro hmem
        rcases List.mem_append.1 hmem with hl | hr
        · rw [hZ, advClock_trace] at hl
          exact hni hl
        · have hieq : i = next.id := by simpa using hr
          exact hne hieq.symm
      have hin3 : i ∈ (invokeItem Z next).cancelSet :=
        invokeItem_cancel_mono Z next i (by rw [hZ, advClock_cancelSet]; exact hi)
      split at h
      · split at h
        · exact ih h hin3 hnotin3
        · rcases Option.some.inj h with rfl
          exact hnotin3
      · rcases Option.some.inj h with rfl
        exact hni

theorem startLoop_exit :
    ∀ {fuel : Nat} {s s' : SchedState}, s.isEnabled = true →
      runLoop (fun _ => true) fuel s = some s' →
      s'.isEnabled = false ∧ (s'.queue = [] ∨ s'.stopCalled = true) := by
  intro fuel
  induction fuel with
  | zero =>
    intro s s' _ h
    exact absurd h (by simp [runLoop])
  | succ fuel ih =>
    intro s s' hen h
    rcases hdr : drain s.cancelSet s.queue with _ | ⟨next, rest⟩
    · rw [runLoop_succ_nil hdr] at h
      rcases Option.some.inj h with rfl
      exact ⟨rfl, Or.inl rfl⟩
    · rw [runLoop_succ_cons hdr] at h
      split at h
      · split at h
        · rename_i h3en
          exact ih h3en h
        · rename_i h3en
          rcases Option.some.inj h with rfl
          have h3en2 : (invokeItem (advClock next { s with queue := next :: rest })
              next).isEnabled = false := by simpa using h3en
          refine ⟨h3en2, Or.inr ?_⟩
          apply invokeItem_isEnabled
          · rw [advClock_isEnabled]
            exact hen
          · exact h3en2
      · rename_i hfalse
        exact absurd rfl hfalse

theorem runLoop_entries {check : Item → Bool} :
    ∀ {fuel : Nat} {s s' : SchedState}, runLoop check fuel s = some s' →
      ∀ e ∈ s'.trace, e ∈ s.trace ∨ e.due ≤ e.obs := by
  intro fuel
  induction fuel with
  | zero =>
    intro s s' h
    exact absurd h (by simp [runLoop])
  | succ fuel ih =>
    intro s s' h e
    rcases hdr : drain s.cancelSet s.queue with _ | ⟨next, rest⟩
    · rw [runLoop_succ_nil hdr] at h
      rcases Option.some.inj h with rfl
      exact fun he => Or.inl he
    · rw [runLoop_succ_cons hdr] at h
      intro he
      set Z := advClock next { s with queue := next :: rest } with hZ
      have hncnext : s.cancelSet.contains next.id = false := drain_head hdr
      have htr := @invokeItem_trace Z next (by rw [hZ, advClock_cancelSet]; exact hncnext)
      have hstep : ∀ e2 ∈ (invokeItem Z next).trace, e2 ∈ s.trace ∨ e2.due ≤ e2.obs := by
        intro e2 he2
        rw [htr] at he2
        rcases List.mem_append.1 he2 with hl | hr
        · left
          rw [hZ, advClock_trace] at hl
          exact hl
        · right
          rcases List.mem_singleton.1 hr with rfl
          show next.dueTime ≤ Z.clock
          rw [hZ]
          exact advClock_due_le next _
      split at h
      · split at h
        · rcases ih h e he with h2 | h2
          · exact hstep e h2
          · exact Or.inr h2
        · rcases Option.some.inj h with rfl
          exact hstep e he
      · rcases Option.some.inj h with rfl
        exact Or.inl he

/-! ## Claim C3 (amended) -/

theorem invokeItem_record {s : SchedState} {x : Item} {tag : Int}
    (ha : x.action = .record tag) (hnc : s.cancelSet.contains x.id = false) :
    invokeItem s x = { s with
      queue := removeItem x.id s.queue
      trace := s.trace ++ [⟨x.id, x.dueTime, s.clock, tag⟩] } := by
  rw [invokeItem_not_cancelled hnc]
  unfold pushTrace
  rw [ha]
  rfl

theorem drain_nil (q : List Item) : drain [] q = q := by
  cases q with
  | nil => rfl
  | cons x xs => rfl

theorem runLoop_observers :
    ∀ {fuel : Nat} {s s' : SchedState},
      s.isEnabled = true → s.cancelSet = [] →
      s.queue.Pairwise keyLt → ((s.queue.map Item.id).Nodup) →
      (∀ x ∈ s.queue, s.clock ≤ x.dueTime ∧ ∃ tag, x.action = Act.record tag) →
      runLoop (fun _ => true) fuel s = some s' →
      s'.trace = s.trace ++ s.queue.map obsEntry := by
  intro fuel
  induction fuel with
  | zero =>
    intro s s' _ _ _ _ _ h
    exact absurd h (by simp [runLoop])
  | succ fuel ih =>
    intro s s' hen hcs hp hn hobs h
    rcases hq : s.queue with _ | ⟨x, xs⟩
    · have hdr : drain s.cancelSet s.queue = [] := by rw [hcs, hq, drain_nil]
      rw [runLoop_succ_nil hdr] at h
      rcases Option.some.inj h with rfl
      simp
    · have hdr : drain s.cancelSet s.queue = x :: xs := by rw [hcs, hq, drain_nil]
      rw [hq] at hp hn
      rw [List.map_cons, List.nodup_cons] at hn
      rcases hobs x (by rw [hq]; exact List.mem_cons_self x xs) with ⟨hxc, tag, hxa⟩
      rw [runLoop_succ_cons hdr] at h
      have hclk : (advClock x { s with queue := x :: xs }).clock = x.dueTime :=
        advClock_clock_le_due x _ hxc
      have hinv := invokeItem_record (s := advClock x { s with queue := x :: xs }) hxa
        (by rw [advClock_cancelSet]
            show s.cancelSet.contains x.id = false
            rw [hcs]
            rfl)
      rw [hinv] at h
      have hnody : ∀ y ∈ xs, y.id ≠ x.id := by
        intro y hy he
        exact hn.1 (he ▸ List.mem_map.2 ⟨y, hy, rfl⟩)
      have hrm : removeItem x.id ((advClock x { s with queue := x :: xs }).queue) = xs := by
        rw [advClock_queue]
        exact removeItem_cons_self hnody
      rw [hrm, hclk] at h
      split at h
      · split at h
        · rename_i h3en
          have ihres := ih ?_ ?_ ?_ ?_ ?_ h
          · rw [ihres]
            have hobsx : obsEntry x = ⟨x.id, x.dueTime, x.dueTime, tag⟩ := by
              unfold obsEntry tagOf
              rw [hxa]
            show (s.trace ++ [(⟨x.id, x.dueTime, x.dueTime, tag⟩ : TraceEntry)])
                ++ List.map obsEntry xs = s.trace ++ List.map obsEntry (x :: xs)
            rw [List.map_cons, hobsx, List.append_assoc]
            rfl
          · exact hen
          · exact hcs
          · exact (List.pairwise_cons.1 hp).2
          · exact hn.2
          · intro y hy
            constructor
            · show x.dueTime ≤ y.dueTime
              rcases (List.pairwise_cons.1 hp).1 y hy with h2 | ⟨h2, _⟩
              · exact le_of_lt h2
              · exact le_of_eq h2
            · exact (hobs y (by rw [hq]; exact List.mem_cons_of_mem x hy)).2
        · rename_i h3en
          exact absurd hen h3en
      · rename_i hfalse
        exact absurd rfl hfalse

theorem mkItems_map_id (c0 : Int) : ∀ (ds : List Int) (i : Nat),
    (mkItems c0 i ds).map Item.id = List.range' i ds.length := by
  intro ds
  induction ds with
  | nil =>
    intro i
    rfl
  | cons d ds ih =>
    intro i
    rw [mkItems, List.map_cons, ih, List.length_cons, List.range'_succ]

theorem mkItems_mem {c0 : Int} : ∀ {ds : List Int} {i : Nat} {x : Item},
    x ∈ mkItems c0 i ds → (∃ d ∈ ds, x.dueTime = add c0 d) ∧ x.action = Act.record 0 := by
  intro ds
  induction ds with
  | nil =>
    intro i x hx
    cases hx
  | cons d ds ih =>
    intro i x hx
    rw [mkItems] at hx
    rcases List.mem_cons.1 hx with rfl | hx2
    · exact ⟨⟨d, List.mem_cons_self d ds, rfl⟩, rfl⟩
    · rcases ih hx2 with ⟨⟨d2, hd2, he⟩, ha⟩
      exact ⟨⟨d2, List.mem_cons_of_mem d hd2, he⟩, ha⟩

theorem scheduleObs_spec :
    ∀ (ds : List Int) (s : SchedState),
      (scheduleObs s ds).clock = s.clock ∧
      (scheduleObs s ds).isEnabled = s.isEnabled ∧
      (scheduleObs s ds).cancelSet = s.cancelSet ∧
      (scheduleObs s ds).trace = s.trace ∧
      List.Perm (scheduleObs s ds).queue (s.queue ++ mkItems s.clock s.nextId ds) ∧
      ((s.queue.Pairwise keyLt ∧ (s.queue.map Item.id).Nodup ∧
          (∀ x ∈ s.queue, x.id < s.nextId)) →
        ((scheduleObs s ds).queue.Pairwise keyLt ∧
          ((scheduleObs s ds).queue.map Item.id).Nodup ∧
          (∀ x ∈ (scheduleObs s ds).queue, x.id < (scheduleObs s ds).nextId))) := by
  intro ds
  induction ds with
  | nil =>
    intro s
    refine ⟨rfl, rfl, rfl, rfl, by simp [scheduleObs, mkItems], fun hw => hw⟩
  | cons d ds ih =>
    intro s
    have hstep := ih (scheduleRelativeWithState s d (.record 0)).1
    refine ⟨?_, ?_, ?_, ?_, ?_, ?_⟩
    · rw [scheduleObs, hstep.1]
      rfl
    · rw [scheduleObs, hstep.2.1]
      rfl
    · rw [scheduleObs, hstep.2.2.1]
      rfl
    · rw [scheduleObs, hstep.2.2.2.1]
      rfl
    · rw [scheduleObs, mkItems]
      refine (hstep.2.2.2.2.1).trans ?_
      refine ((enqueue_perm ⟨s.nextId, add s.clock d, Act.record 0⟩ s.queue).append_right
        (mkItems s.clock (s.nextId + 1) ds)).trans ?_
      exact List.perm_middle.symm
    · intro hw
      rw [scheduleObs]
      exact hstep.2.2.2.2.2 (scheduleAbsWF hw.1 hw.2.1 hw.2.2)

/-- Claim C3 (amended): for every sequence of `scheduleRelativeWithState`
calls with nonnegative relative delays followed by `start()`: every invoked
action observes a clock equal to its scheduled due time; the trace is
ordered by due time with scheduling order (= item id) breaking ties — so
observed clocks are non-decreasing and equal-due-time items run in
scheduling order; and the invoked ids are exactly the scheduled ids. -/
theorem c3_schedule_start_amended (c0 : Int) (ds : List Int) (fuel : Nat) (s' : SchedState)
    (hds : ∀ d ∈ ds, 0 ≤ d)
    (hrun : start fuel (scheduleObs (freshState c0) ds) = some s') :
    (∀ e ∈ s'.trace, e.obs = e.due) ∧
    s'.trace.Pairwise (fun a b => a.due < b.due ∨ (a.due = b.due ∧ a.itemId < b.itemId)) ∧
    List.Perm (s'.trace.map TraceEntry.itemId) (List.range ds.length) := by
  have hspec := scheduleObs_spec ds (freshState c0)
  have hwf := hspec.2.2.2.2.2 ⟨List.Pairwise.nil, List.nodup_nil, by intro x hx; cases hx⟩
  unfold start at hrun
  rw [if_neg (by rw [hspec.2.1]; simp [freshState])] at hrun
  unfold startLoop at hrun
  have hobs : ∀ x ∈ ({ scheduleObs (freshState c0) ds with isEnabled := true } :
      SchedState).queue,
      ({ scheduleObs (freshState c0) ds with isEnabled := true } : SchedState).clock
        ≤ x.dueTime ∧ ∃ tag, x.action = Act.record tag := by
    intro x hx
    have hxm : x ∈ (freshState c0).queue ++
        mkItems (freshState c0).clock (freshState c0).nextId ds :=
      (hspec.2.2.2.2.1).mem_iff.1 hx
    rcases mkItems_mem (i := 0) (by simpa [freshState] using hxm) with
      ⟨⟨d2, hd2, he⟩, ha⟩
    constructor
    · show (scheduleObs (freshState c0) ds).clock ≤ x.dueTime
      rw [hspec.1, he]
      show c0 ≤ add c0 d2
      unfold add
      have := hds d2 hd2
      omega
    · exact ⟨0, ha⟩
  have htr := runLoop_observers (s := { scheduleObs (freshState c0) ds with
      isEnabled := true }) rfl hspec.2.2.1 hwf.1 hwf.2.1 hobs hrun
  have htr2 : s'.trace = (scheduleObs (freshState c0) ds).queue.map obsEntry := by
    rw [htr]
    rw [show ({ scheduleObs (freshState c0) ds with isEnabled := true } :
        SchedState).trace = ([] : List TraceEntry) from hspec.2.2.2.1]
    rfl
  refine ⟨?_, ?_, ?_⟩
  · intro e he
    rw [htr2] at he
    rcases List.mem_map.1 he with ⟨x, hx, rfl⟩
    rfl
  · rw [htr2]
    refine List.Pairwise.map obsEntry ?_ hwf.1
    intro a b hab
    rcases hab with h1 | ⟨h1, h2⟩
    · exact Or.inl h1
    · exact Or.inr ⟨h1, h2⟩
  · rw [htr2, List.map_map]
    have h2 : List.Perm ((scheduleObs (freshState c0) ds).queue.map Item.id)
        (List.range ds.length) := by
      refine ((hspec.2.2.2.2.1).map Item.id).trans ?_
      rw [show ((freshState c0).queue ++
          mkItems (freshState c0).clock (freshState c0).nextId ds)
        = mkItems c0 0 ds from rfl]
      rw [mkItems_map_id, ← List.range_eq_range']
    exact h2

/-- Witness for C3 (amended): the spec scenario — relative delays 10, 5, 5
from clock 0 — run to completion. -/
theorem c3_schedule_start_amended_witness :
    (∀ d ∈ [(10 : Int), 5, 5], 0 ≤ d) ∧
    ((∀ e ∈ ((start 5 (scheduleObs (freshState 0) [10, 5, 5])).getD (freshState 0)).trace,
        e.obs = e.due) ∧
      ((start 5 (scheduleObs (freshState 0) [10, 5, 5])).getD (freshState 0)).trace.Pairwise
        (fun a b => a.due < b.due ∨ (a.due = b.due ∧ a.itemId < b.itemId)) ∧
      List.Perm (((start 5 (scheduleObs (freshState 0) [10, 5, 5])).getD
        (freshState 0)).trace.map TraceEntry.itemId) (List.range 3)) :=
  ⟨by decide,
   c3_schedule_start_amended 0 [10, 5, 5] 5 _ (by decide) (by decide)⟩

/-! ## Claim C2 -/

/-- Claim C2: `start()` is a no-op when already Running.  Otherwise it runs
the dispatch loop, which on every iteration takes the item returned by
`getNext()` — proved (for a sorted queue) to be the earliest non-cancelled
queued item per the (dueTime, insertionSequence) key — advances the clock
to that item's due time exactly when the due time is strictly later than
the current clock, and invokes it (`invokeItem` removes the item from the
queue and runs its action); the call returns only once the queue holds no
non-cancelled item (it is then physically empty) or `stop()` has been
called, with the scheduler Idle again.  `ObsChain` records the exact clock
recurrence observed by the run's invocations. -/
theorem c2_start_spec (fuel : Nat) (s : SchedState) :
    (s.isEnabled = true → start fuel s = some s) ∧
    (s.queue.Pairwise keyLt →
      (∀ next, (getNext s).1 = some next →
        next ∈ s.queue ∧ s.cancelSet.contains next.id = false ∧
        ∀ x ∈ s.queue, s.cancelSet.contains x.id = false → next = x ∨ keyLt next x) ∧
      ((getNext s).1 = none → ∀ x ∈ s.queue, s.cancelSet.contains x.id = true)) ∧
    (∀ next s1, getNext s = (some next, s1) →
      startLoop (fuel + 1) s =
        if (invokeItem (advClock next s1) next).isEnabled then
          startLoop fuel (invokeItem (advClock next s1) next)
        else some (invokeItem (advClock next s1) next)) ∧
    (∀ s', s.isEnabled = false → start fuel s = some s' →
      s'.isEnabled = false ∧ (s'.queue = [] ∨ s'.stopCalled = true) ∧
      ∃ new, s'.trace = s.trace ++ new ∧ ObsChain s.clock new) := by
  refine ⟨?_, ?_, ?_, ?_⟩
  · intro h
    unfold start
    rw [if_pos h]
  · intro hp
    exact getNext_min hp
  · intro next s1 hg
    exact startLoop_step hg
  · intro s' hen h
    unfold start at h
    rw [if_neg (by simp [hen])] at h
    unfold startLoop at h
    rcases startLoop_exit rfl h with ⟨h1, h2⟩
    rcases runLoop_obsChain h with ⟨new, hnew, hchain⟩
    exact ⟨h1, h2, new, hnew, hchain⟩

/-- Witness for C2: a no-op re-entrant `start`; the earliest-item contract
of `getNext` at a concrete two-item queue; the one-step dispatch equation
at that queue; and a completed run in which the first invoked action calls
`stop()`, leaving the second item queued. -/
theorem c2_start_witness :
    (start 3 { freshState 0 with isEnabled := true } =
      some { freshState 0 with isEnabled := true }) ∧
    ((⟨0, 1, Act.stop⟩ : Item) ∈ cexStop.queue ∧
      cexStop.cancelSet.contains 0 = false ∧
      (∀ x ∈ cexStop.queue, cexStop.cancelSet.contains x.id = false →
        (⟨0, 1, Act.stop⟩ : Item) = x ∨ keyLt ⟨0, 1, Act.stop⟩ x)) ∧
    (startLoop 4 cexStop =
      if (invokeItem (advClock ⟨0, 1, Act.stop⟩ cexStop) ⟨0, 1, Act.stop⟩).isEnabled then
        startLoop 3 (invokeItem (advClock ⟨0, 1, Act.stop⟩ cexStop) ⟨0, 1, Act.stop⟩)
      else some (invokeItem (advClock ⟨0, 1, Act.stop⟩ cexStop) ⟨0, 1, Act.stop⟩)) ∧
    (((start 10 cexStop).getD (freshState 0)).isEnabled = false ∧
      (((start 10 cexStop).getD (freshState 0)).queue = [] ∨
        ((start 10 cexStop).getD (freshState 0)).stopCalled = true) ∧
      ∃ new, ((start 10 cexStop).getD (freshState 0)).trace = cexStop.trace ++ new ∧
        ObsChain cexStop.clock new) :=
  ⟨(c2_start_spec 3 _).1 (by decide),
   ((c2_start_spec 0 cexStop).2.1 (by decide)).1 ⟨0, 1, Act.stop⟩ (by decide),
   (c2_start_spec 3 cexStop).2.2.1 ⟨0, 1, Act.stop⟩ cexStop (by decide),
   (c2_start_spec 10 cexStop).2.2.2 ((start 10 cexStop).getD (freshState 0))
     (by decide) (by decide)⟩

/-! ## Claim C10 -/

/-- Claim C10: whenever `start()` runs its loop to completion without any
invoked action calling `stop()`, on return the scheduler is Idle and the
queue is physically empty (cancelled, never-invoked items included, since
`getNext` dequeues them). -/
theorem c10_start_drains (fuel : Nat) (s s' : SchedState)
    (hen : s.isEnabled = false) (h : start fuel s = some s')
    (hns : s'.stopCalled = false) :
    s'.isEnabled = false ∧ s'.queue = [] := by
  unfold start at h
  rw [if_neg (by simp [hen])] at h
  unfold startLoop at h
  rcases startLoop_exit rfl h with ⟨h1, h2 | h2⟩
  · exact ⟨h1, h2⟩
  · rw [hns] at h2
    exact absurd h2 Bool.false_ne_true

/-- Witness for C10: two items, the first of them cancelled before the run;
after `start`, the queue is empty (the cancelled item was dequeued and
discarded, the live one invoked). -/
theorem c10_start_drains_witness :
    (c10State.isEnabled = false ∧
      ((start 10 c10State).getD (freshState 0)).stopCalled = false ∧
      (⟨0, 5, .nop⟩ : Item) ∈ c10State.queue ∧ 0 ∈ c10State.cancelSet ∧
      0 ∉ traceIds ((start 10 c10State).getD (freshState 0)).trace) ∧
    ((start 10 c10State).getD (freshState 0)).isEnabled = false ∧
    ((start 10 c10State).getD (freshState 0)).queue = [] :=
  ⟨by decide,
   c10_start_drains 10 c10State ((start 10 c10State).getD (freshState 0))
     (by decide) (by decide) (by decide)⟩

/-! ## Claim C4 -/

/-- Claim C4: `getNext` physically dequeues and discards the cancelled
items at the front of the queue and returns the first non-cancelled item
(or a not-found signal once the queue empties); and a cancelled, not yet
invoked item is never invoked regardless of when the cancellation occurred
relative to queue traversal: the guarantee is stated at EVERY dispatch
state `s` of either loop — in particular at the state right after an
invoked action cancelled a pending item mid-run — both step-wise (the next
dispatched item is never the cancelled one, the flag persists, and the
trace stays clean of it) and for the remainder of any completed `runLoop`,
`start` or `advanceTo` run. -/
theorem c4_cancel_safety (s : SchedState) (t : Int) (fuel : Nat) (i : Nat) :
    ((getNext s).2.queue = s.queue.dropWhile (fun it => s.cancelSet.contains it.id) ∧
      (getNext s).1 = (s.queue.dropWhile (fun it => s.cancelSet.contains it.id)).head?) ∧
    (∀ next s1, getNext s = (some next, s1) → i ∈ s.cancelSet →
      next.id ≠ i ∧ i ∈ (invokeItem (advClock next s1) next).cancelSet ∧
      (i ∉ traceIds s.trace →
        i ∉ traceIds (invokeItem (advClock next s1) next).trace)) ∧
    (∀ check : Item → Bool, ∀ s', runLoop check fuel s = some s' →
      i ∈ s.cancelSet → i ∉ traceIds s.trace → i ∉ traceIds s'.trace) ∧
    (∀ s', start fuel s = some s' → i ∈ s.cancelSet → i ∉ traceIds s.trace →
      i ∉ traceIds s'.trace) ∧
    (∀ s', advanceTo t fuel s = .ok s' → i ∈ s.cancelSet → i ∉ traceIds s.trace →
      i ∉ traceIds s'.trace) := by
  refine ⟨?_, ?_, ?_, ?_, ?_⟩
  · unfold getNext
    rw [drain_eq_dropWhile]
    exact ⟨rfl, rfl⟩
  · intro next s1 hg hi
    have hg1 : (drain s.cancelSet s.queue).head? = some next := congrArg Prod.fst hg
    have hg2 : s1 = { s with queue := drain s.cancelSet s.queue } :=
      (congrArg Prod.snd hg).symm
    subst hg2
    rcases hdr : drain s.cancelSet s.queue with _ | ⟨nx, rest⟩
    · rw [hdr] at hg1
      cases hg1
    · rw [hdr] at hg1
      rcases Option.some.inj hg1 with rfl
      have hncN : s.cancelSet.contains nx.id = false := drain_head hdr
      have hne : nx.id ≠ i := by
        intro he
        rw [he] at hncN
        exact absurd hi (by rw [← contains_iff, hncN]; exact Bool.false_ne_true)
      refine ⟨hne, ?_, ?_⟩
      · apply invokeItem_cancel_mono
        rw [advClock_cancelSet]
        exact hi
      · intro hni
        rw [@invokeItem_trace_invEntry
          (advClock nx { s with queue := nx :: rest }) nx
          (by rw [advClock_cancelSet]; exact hncN)]
        unfold traceIds
        rw [List.map_append]
        intro hmem
        rcases List.mem_append.1 hmem with hl | hr
        · rw [advClock_trace] at hl
          exact hni hl
        · have hieq : i = nx.id := by simpa [invEntry] using hr
          exact hne hieq.symm
  · intro check s' h hi hni
    exact runLoop_cancelled_silent h hi hni
  · intro s' h hi hni
    unfold start at h
    split at h
    · rcases Option.some.inj h with rfl
      exact hni
    · unfold startLoop at h
      exact runLoop_cancelled_silent h hi hni
  · intro s' h hi hni
    unfold advanceTo at h
    split at h
    · exact absurd h (by simp)
    · split at h
      · rcases VTResult.ok.inj h with rfl
        exact hni
      · split at h
        · rcases VTResult.ok.inj h with rfl
          exact hni
        · rcases hres : advanceToLoop t fuel { s with isEnabled := true } with _ | s1
          · rw [hres] at h
            exact absurd h (by simp)
          · rw [hres] at h
            rcases VTResult.ok.inj h with rfl
            unfold advanceToLoop at hres
            have hs1 := runLoop_cancelled_silent hres hi hni
            exact hs1

/-- Witness for C4, exercising cancellation at several timings: the
mid-run dispatch state `cexMid` (reached when item 0's action has just
cancelled the pending item 1 during the traversal of `cexCancel`'s run)
from which the rest of the loop never invokes item 1; the step conjunct at
a queue whose front has been cancelled; whole `start` and `advanceTo` runs
over a pre-cancelled item; and the end-to-end `cexCancel` run itself. -/
theorem c4_cancel_safety_witness :
    (1 ∈ cexMid.cancelSet ∧ 1 ∉ traceIds cexMid.trace ∧
      (⟨1, 2, .record 5⟩ : Item) ∈ cexMid.queue ∧
      1 ∉ traceIds ((runLoop (fun _ => true) 5 cexMid).getD (freshState 0)).trace) ∧
    ((⟨1, 7, .record 1⟩ : Item).id ≠ 0 ∧
      0 ∈ (invokeItem (advClock ⟨1, 7, .record 1⟩
        { c10State with queue := [⟨1, 7, .record 1⟩] }) ⟨1, 7, .record 1⟩).cancelSet ∧
      (0 ∉ traceIds c10State.trace →
        0 ∉ traceIds (invokeItem (advClock ⟨1, 7, .record 1⟩
          { c10State with queue := [⟨1, 7, .record 1⟩] }) ⟨1, 7, .record 1⟩).trace)) ∧
    (0 ∈ c10State.cancelSet ∧ 0 ∉ traceIds c10State.trace ∧
      0 ∉ traceIds ((start 10 c10State).getD (freshState 0)).trace) ∧
    (0 ∉ traceIds ((okStateD (freshState 0) (advanceTo 9 10 c10State))).trace) ∧
    (1 ∉ traceIds ((start 10 cexCancel).getD (freshState 0)).trace ∧
      1 ∈ ((start 10 cexCancel).getD (freshState 0)).cancelSet ∧
      ((start 10 cexCancel).getD (freshState 0)).queue = []) :=
  ⟨⟨by decide, by decide, by decide,
    (c4_cancel_safety cexMid 9 5 1).2.2.1 (fun _ => true)
      ((runLoop (fun _ => true) 5 cexMid).getD (freshState 0))
      (by decide) (by decide) (by decide)⟩,
   (c4_cancel_safety c10State 9 5 0).2.1 ⟨1, 7, .record 1⟩
     { c10State with queue := [⟨1, 7, .record 1⟩] } (by decide) (by decide),
   ⟨by decide, by decide,
    (c4_cancel_safety c10State 9 10 0).2.2.2.1 ((start 10 c10State).getD (freshState 0))
      (by decide) (by decide) (by decide)⟩,
   (c4_cancel_safety c10State 9 10 0).2.2.2.2
     (okStateD (freshState 0) (advanceTo 9 10 c10State))
     (by decide) (by decide) (by decide),
   by decide⟩

/-! ## Claim C8 -/

/-- Claim C8: the clock never moves backward.  Across every operation of
the scheduler — `start`, `stop`, `advanceTo`, `advanceBy`, `sleep` and
every `schedule*` call — the clock on (normal) return is never earlier
than the clock before the call. -/
theorem c8_clock_monotone (s : SchedState) (fuel : Nat) (d t due st p : Int)
    (a : Act) (f : PFn) :
    (∀ s', start fuel s = some s' → s.clock ≤ s'.clock) ∧
    ((stop s).clock = s.clock) ∧
    (∀ u s', advanceTo u fuel s = .ok s' → s.clock ≤ s'.clock) ∧
    (∀ s', advanceBy d fuel s = .ok s' → s.clock ≤ s'.clock) ∧
    (∀ s', sleep d s = .ok s' → s.clock ≤ s'.clock) ∧
    ((scheduleAbsoluteWithState s due a).1.clock = s.clock) ∧
    ((scheduleRelativeWithState s d a).1.clock = s.clock) ∧
    ((schedulePeriodicWithState s st p f).1.clock = s.clock) := by
  have hadv : ∀ u s', advanceTo u fuel s = .ok s' → s.clock ≤ s'.clock := by
    intro u s' h
    unfold advanceTo at h
    split at h
    · exact absurd h (by simp)
    · split at h
      · rcases VTResult.ok.inj h with rfl
        exact le_refl _
      · split at h
        · rcases VTResult.ok.inj h with rfl
          exact le_refl _
        · rename_i h1 h2 _
          rcases hres : advanceToLoop u fuel { s with isEnabled := true } with _ | s1
          · rw [hres] at h
            exact absurd h (by simp)
          · rw [hres] at h
            rcases VTResult.ok.inj h with rfl
            show s.clock ≤ u
            have hc : comparer s.clock u < 0 := by
              rcases lt_trichotomy (comparer s.clock u) 0 with hlt | heq | hgt
              · exact hlt
              · exact absurd heq h2
              · exact absurd hgt (by simpa using h1)
            exact le_of_lt (comparer_neg_iff.1 hc)
  refine ⟨?_, rfl, hadv, ?_, ?_, rfl, rfl, rfl⟩
  · intro s' h
    unfold start at h
    split at h
    · rcases Option.some.inj h with rfl
      exact le_refl _
    · unfold startLoop at h
      exact (runLoop_mono h).1
  · intro s' h
    unfold advanceBy at h
    split at h
    · exact absurd h (by simp)
    · split at h
      · rcases VTResult.ok.inj h with rfl
        exact le_refl _
      · exact hadv _ s' h
  · intro s' h
    unfold sleep at h
    split at h
    · exact absurd h (by simp)
    · rename_i hc
      rcases VTResult.ok.inj h with rfl
      show s.clock ≤ add s.clock d
      rw [not_le] at hc
      exact le_of_lt (comparer_neg_iff.1 hc)

/-! ## Claim C1 -/

theorem invoke_step_WF {s : SchedState} {next : Item} {rest : List Item}
    (hdr : drain s.cancelSet s.queue = next :: rest)
    (hp : s.queue.Pairwise keyLt) (hn : (s.queue.map Item.id).Nodup)
    (hlt : ∀ x ∈ s.queue, x.id < s.nextId) :
    (invokeItem (advClock next { s with queue := next :: rest }) next).queue.Pairwise keyLt ∧
    (((invokeItem (advClock next { s with queue := next :: rest }) next).queue.map
      Item.id).Nodup) ∧
    (∀ x ∈ (invokeItem (advClock next { s with queue := next :: rest }) next).queue,
      x.id < (invokeItem (advClock next { s with queue := next :: rest }) next).nextId) := by
  have hncN : s.cancelSet.contains next.id = false := drain_head hdr
  have hpD : (next :: rest).Pairwise keyLt :=
    List.Pairwise.sublist (hdr ▸ drain_sublist s.cancelSet s.queue) hp
  have hnD : ((next :: rest).map Item.id).Nodup :=
    List.Nodup.sublist ((hdr ▸ drain_sublist s.cancelSet s.queue).map Item.id) hn
  rw [invokeItem_not_cancelled (by rw [advClock_cancelSet]; exact hncN)]
  apply runAction_WFq
  · show (removeItem next.id (next :: rest)).Pairwise keyLt
    exact List.Pairwise.sublist (removeItem_sublist _ _) hpD
  · show ((removeItem next.id (next :: rest)).map Item.id).Nodup
    exact List.Nodup.sublist ((removeItem_sublist _ _).map Item.id) hnD
  · show ∀ x ∈ removeItem next.id (next :: rest), x.id < s.nextId
    intro x hx
    apply hlt
    apply @mem_of_mem_drain s.cancelSet s.queue x
    rw [hdr]
    exact (removeItem_sublist _ _).subset hx

theorem advanceToLoop_covers {t : Int} :
    ∀ {fuel : Nat} {s s' : SchedState},
      s.queue.Pairwise keyLt → ((s.queue.map Item.id).Nodup) →
      (∀ x ∈ s.queue, x.id < s.nextId) → s.isEnabled = true →
      runLoop (dueCheck t) fuel s = some s' → s'.stopCalled = false →
      ∀ it ∈ s.queue, it.dueTime ≤ t → it.id ∉ s'.cancelSet →
        it.id ∈ traceIds s'.trace := by
  intro fuel
  induction fuel with
  | zero =>
    intro s s' _ _ _ _ h
    exact absurd h (by simp [runLoop])
  | succ fuel ih =>
    intro s s' hp hn hlt hen h hstop it hit hdue hnc
    have hncS : s.cancelSet.contains it.id = false := by
      cases hcs : s.cancelSet.contains it.id
      · rfl
      · exact absurd ((runLoop_mono h).2.1 it.id (contains_iff.1 hcs)) hnc
    rcases hdr : drain s.cancelSet s.queue with _ | ⟨next, rest⟩
    · have hmem := mem_drain hit hncS
      rw [hdr] at hmem
      cases hmem
    · have hmem := mem_drain hit hncS
      rw [hdr] at hmem
      have hpD : (next :: rest).Pairwise keyLt :=
        List.Pairwise.sublist (hdr ▸ drain_sublist s.cancelSet s.queue) hp
      have hnD : ((next :: rest).map Item.id).Nodup :=
        List.Nodup.sublist ((hdr ▸ drain_sublist s.cancelSet s.queue).map Item.id) hn
      have hncN : s.cancelSet.contains next.id = false := drain_head hdr
      rw [runLoop_succ_cons hdr] at h
      by_cases hck : dueCheck t next = true
      · rw [if_pos hck] at h
        rcases List.mem_cons.1 hmem with heq | hrest
        · subst heq
          have hidin : it.id ∈ traceIds
              (invokeItem (advClock it { s with queue := it :: rest }) it).trace := by
            rw [invokeItem_trace (by rw [advClock_cancelSet]; exact hncN)]
            unfold traceIds
            rw [List.map_append]
            exact List.mem_append_right _ (by simp)
          split at h
          · exact runLoop_traceIds_mono h hidin
          · rcases Option.some.inj h with rfl
            exact hidin
        · have hneq : it.id ≠ next.id := by
            rw [List.map_cons, List.nodup_cons] at hnD
            intro he
            exact hnD.1 (he ▸ List.mem_map.2 ⟨it, hrest, rfl⟩)
          have hit3 : it ∈ (invokeItem (advClock next { s with queue := next :: rest })
              next).queue := by
            rw [invokeItem_not_cancelled (by rw [advClock_cancelSet]; exact hncN)]
            apply runAction_queue_mono
            show it ∈ removeItem next.id (next :: rest)
            exact mem_removeItem.2 ⟨hmem, hneq⟩
          have hWF3 := invoke_step_WF hdr hp hn hlt
          split at h
          · rename_i h3en
            exact ih hWF3.1 hWF3.2.1 hWF3.2.2 h3en h hstop it hit3 hdue hnc
          · rename_i h3en
            have hsc := invokeItem_isEnabled (advClock next { s with queue := next :: rest })
              next (by rw [advClock_isEnabled]; exact hen) (by simpa using h3en)
            rcases Option.some.inj h with rfl
            rw [hsc] at hstop
            exact absurd hstop (by simp)
      · rw [if_neg hck] at h
        rcases Option.some.inj h with rfl
        have ht : t < next.dueTime := by
          have h2 : ¬ comparer next.dueTime t ≤ 0 := by simpa [dueCheck] using hck
          exact comparer_pos_iff.1 (not_le.1 h2)
        rcases List.mem_cons.1 hmem with heq | hrest
        · subst heq
          exact absurd hdue (by omega)
        · have hklt := (List.pairwise_cons.1 hpD).1 it hrest
          have hle : next.dueTime ≤ it.dueTime := by
            rcases hklt with h2 | ⟨h2, _⟩
            · exact le_of_lt h2
            · exact le_of_eq h2
          exact absurd hdue (by omega)

/-- Claim C1 (amended): `advanceTo(t)` fails with `OutOfRange` whenever `t`
is earlier than the clock, and is a complete no-op (clock and queue
unchanged) when `t` equals the clock.  When `t` is strictly later than the
clock and the scheduler is not already Running (well-formed queue), a
normal return has the clock exactly `t`; and if no invoked action called
`stop()`, every initially queued item with due time at most `t` whose
cancellation handle was never invoked has been invoked. -/
theorem c1_advanceTo_amended (t : Int) (fuel : Nat) (s : SchedState) :
    (t < s.clock → advanceTo t fuel s = .outOfRange) ∧
    (s.clock = t → advanceTo t fuel s = .ok s) ∧
    (∀ s', s.isEnabled = false → s.clock < t →
      s.queue.Pairwise keyLt → (s.queue.map Item.id).Nodup →
      (∀ x ∈ s.queue, x.id < s.nextId) →
      advanceTo t fuel s = .ok s' →
      s'.clock = t ∧
      (s'.stopCalled = false →
        ∀ it ∈ s.queue, it.dueTime ≤ t → it.id ∉ s'.cancelSet →
          it.id ∈ traceIds s'.trace)) := by
  refine ⟨?_, ?_, ?_⟩
  · intro h
    unfold advanceTo
    rw [if_pos (comparer_pos_iff.2 h)]
  · intro h
    unfold advanceTo
    rw [if_neg (by rw [comparer_eq_zero_iff.2 h]; omega), if_pos (comparer_eq_zero_iff.2 h)]
  · intro s' hen hlt2 hp hn hids h
    unfold advanceTo at h
    rw [if_neg (by rw [not_lt]; exact comparer_nonpos_iff.2 (le_of_lt hlt2)),
      if_neg (fun hz => absurd (comparer_eq_zero_iff.1 hz) (by omega)),
      if_neg (by simp [hen])] at h
    rcases hres : advanceToLoop t fuel { s with isEnabled := true } with _ | s1
    · rw [hres] at h
      exact absurd h (by simp)
    · rw [hres] at h
      rcases VTResult.ok.inj h with rfl
      refine ⟨rfl, ?_⟩
      intro hstop it hit hdue hnc
      unfold advanceToLoop at hres
      have hcov := advanceToLoop_covers (s := { s with isEnabled := true })
        hp hn hids rfl hres hstop it hit hdue hnc
      exact hcov

/-- Witness for C1 (amended) at concrete inputs: the error case, the
equal-clock no-op, and a full run over a queue holding a cancelled item
(id 0) and a live item (id 1, due 7 ≤ 9) which is duly invoked. -/
theorem c1_advanceTo_amended_witness :
    advanceTo (-1) 5 (freshState 0) = .outOfRange ∧
    advanceTo 0 5 (freshState 0) = .ok (freshState 0) ∧
    ((okStateD (freshState 0) (advanceTo 9 10 c10State)).clock = 9 ∧
      ((okStateD (freshState 0) (advanceTo 9 10 c10State)).stopCalled = false →
        ∀ it ∈ c10State.queue, it.dueTime ≤ 9 →
          it.id ∉ (okStateD (freshState 0) (advanceTo 9 10 c10State)).cancelSet →
          it.id ∈ traceIds (okStateD (freshState 0) (advanceTo 9 10 c10State)).trace)) :=
  ⟨(c1_advanceTo_amended (-1) 5 (freshState 0)).1 (by decide),
   (c1_advanceTo_amended 0 5 (freshState 0)).2.1 (by decide),
   (c1_advanceTo_amended 9 10 c10State).2.2
     (okStateD (freshState 0) (advanceTo 9 10 c10State))
     (by decide) (by decide) (by decide) (by decide) (by decide) (by decide)⟩

/-- Witness for C8 at concrete inputs. -/
theorem c8_clock_monotone_witness :
    (freshState 0).clock ≤ ((start 10 c10State).getD (freshState 0)).clock ∧
    c10State.clock ≤ ((start 10 c10State).getD (freshState 0)).clock ∧
    cexStop.clock ≤ (okStateD (freshState 0) (advanceTo 5 10 cexStop)).clock ∧
    cexStop.clock ≤ (okStateD (freshState 0) (advanceBy 4 10 cexStop)).clock ∧
    (freshState 1).clock ≤ (okStateD (freshState 0) (sleep 2 (freshState 1))).clock :=
  ⟨by decide,
   (c8_clock_monotone c10State 10 0 0 0 0 0 .nop (.addConst 0)).1 _ (by decide),
   (c8_clock_monotone cexStop 10 0 0 0 0 0 .nop (.addConst 0)).2.2.1 5 _ (by decide),
   (c8_clock_monotone cexStop 10 4 0 0 0 0 .nop (.addConst 0)).2.2.2.1 _ (by decide),
   (c8_clock_monotone (freshState 1) 10 2 0 0 0 0 .nop (.addConst 0)).2.2.2.2.1 _ (by decide)⟩

end RxVTS
